import Mathlib

/-!
Verification of the retrieval and ingestion core of the enterprise-rag-platform
backend (`backend/app/services/rag.py`, `backend/app/services/ingestion.py`,
`backend/app/services/rerank.py`, `backend/app/api/routes.py`).

The Python code is shallowly embedded: pure computations become Lean functions,
database-mutating operations become explicit transformers on a `DbState`
record, calls into external collaborators (the embedding model, the reranker
model, HTTP fetches) are parameters that carry either the collaborator's
result or the exception it raised (`Except`).  UUIDs are modelled by `Nat`,
SQL float scores by `ℚ`.
-/

namespace RagPlatform

/-! ### Chunker: `IngestionPipeline._chunk_content`, flat-text branch

The source splits the content on whitespace (`content.split()`), then slides a
window of `max_words` words advancing by `step` words, where
`step = max_words - overlap if max_words > overlap else max_words`.
Each window is re-joined with single blanks and appended when non-empty; the
loop breaks after a window of fewer than `overlap` words once `start > 0`.

We model the loop at the level of the whitespace token list (each emitted
chunk is represented by its list of words; the source stores
`" ".join(slice).strip()`, which on whitespace-free non-empty tokens is a
bijective serialisation of the word list).  The loop is written with an
explicit fuel argument to keep it structurally recursive;
`chunkLoop_fuel_irrel` below shows the fuel used by `chunkContent` is
irrelevant beyond the number of iterations the Python loop can make.
-/

/-- Step of the sliding window: `max_words - overlap if max_words > overlap
else max_words` (ingestion.py line 151). -/
def chunkStep (maxWords overlap : Nat) : Nat :=
  if overlap < maxWords then maxWords - overlap else maxWords

/-- Test modelling `not " ".join(slice_words).strip()`: the joined chunk
string strips to empty exactly when every character of every word of the
slice is whitespace. -/
def blankJoin (slice : List String) : Bool :=
  slice.all (fun w => w.data.all (fun ch => ch.isWhitespace))

/-- The `while start < len(words)` loop of `_chunk_content`
(ingestion.py lines 152-162), one constructor case per iteration.  The `fuel`
argument only makes the recursion structural; each Python iteration either
terminates the loop or advances `start` by `chunkStep ≥ 1`, so
`words.length + 1` units of fuel are never exhausted (`chunkLoop_fuel_irrel`). -/
def chunkLoop (words : List String) (maxWords overlap : Nat) : Nat → Nat → List (List String)
  | 0, _ => []
  | fuel + 1, start =>
    if start < words.length then
      let slice := (words.drop start).take maxWords
      if slice = [] then []
      else
        let rest :=
          if slice.length < overlap ∧ 0 < start then []
          else chunkLoop words maxWords overlap fuel (start + chunkStep maxWords overlap)
        if blankJoin slice then rest else slice :: rest
    else []

/-- `IngestionPipeline._chunk_content` on flat text, taking the whitespace
token list `words` (the result of `content.split()`; `if not words: return []`
is the first guard of the source). -/
def chunkContent (words : List String) (maxWords overlap : Nat) : List (List String) :=
  if words = [] then [] else chunkLoop words maxWords overlap (words.length + 1) 0

/-- A list of whitespace tokens as produced by Python `str.split()`: every
token contains at least one non-whitespace character (`split()` never
returns an empty or all-whitespace token). -/
def Tokenized (words : List String) : Prop :=
  ∀ w ∈ words, (w.data.all (fun ch => ch.isWhitespace)) = false

instance (words : List String) : Decidable (Tokenized words) :=
  List.decidableBAll _ words

theorem chunkStep_pos {maxWords overlap : Nat} (h : 0 < maxWords) :
    0 < chunkStep maxWords overlap := by
  unfold chunkStep
  split <;> omega

theorem blankJoin_eq_false {slice : List String} (hs : slice ≠ [])
    (ht : ∀ w ∈ slice, (w.data.all (fun ch => ch.isWhitespace)) = false) :
    blankJoin slice = false := by
  cases slice with
  | nil => exact absurd rfl hs
  | cons w rest =>
    have hw := ht w (List.mem_cons_self _ _)
    simp [blankJoin, hw]

/-- Fuel does not matter once it exceeds the number of remaining loop
iterations, which is bounded by the number of remaining words. -/
theorem chunkLoop_fuel_irrel (words : List String) (maxWords overlap : Nat) :
    ∀ f₁ f₂ start, words.length - start < f₁ → words.length - start < f₂ →
      chunkLoop words maxWords overlap f₁ start = chunkLoop words maxWords overlap f₂ start := by
  intro f₁
  induction f₁ with
  | zero => intro f₂ start h₁ _; omega
  | succ f ih =>
    intro f₂ start h₁ h₂
    match f₂, h₂ with
    | f₂ + 1, h₂ =>
      show chunkLoop words maxWords overlap (f + 1) start
          = chunkLoop words maxWords overlap (f₂ + 1) start
      unfold chunkLoop
      by_cases hlt : start < words.length
      · simp only [hlt, if_true]
        by_cases hsl : (words.drop start).take maxWords = []
        · simp [hsl]
        · have hm : 0 < maxWords := by
            rcases Nat.eq_zero_or_pos maxWords with h0 | h0
            · exact absurd (by simp [h0]) hsl
            · exact h0
          have hstep := @chunkStep_pos maxWords overlap hm
          have hrec : chunkLoop words maxWords overlap f (start + chunkStep maxWords overlap)
              = chunkLoop words maxWords overlap f₂ (start + chunkStep maxWords overlap) :=
            ih f₂ (start + chunkStep maxWords overlap) (by omega) (by omega)
          simp only [hsl, if_neg, hrec]
      · simp [hlt]

/-- C7 (amended): a non-empty whitespace-tokenized text with at most
`maxWords - overlap` words, chunked with maxWords > overlap, yields exactly
one chunk.  (The claim as stated — any word count strictly below `maxWords`
— fails: for word counts strictly between `maxWords - overlap` and
`maxWords` the loop also emits the tail window before its break condition
is checked.) -/
theorem chunkContent_short (words : List String) (maxWords overlap : Nat)
    (hmo : overlap < maxWords) (hne : words ≠ [])
    (hlen : words.length ≤ maxWords - overlap) (ht : Tokenized words) :
    chunkContent words maxWords overlap = [words] := by
  have hpos : 0 < words.length := List.length_pos.mpr hne
  have hstep : chunkStep maxWords overlap = maxWords - overlap := by
    simp [chunkStep, hmo]
  unfold chunkContent
  rw [if_neg hne]
  unfold chunkLoop
  rw [if_pos hpos]
  have hslice : (words.drop 0).take maxWords = words := by
    rw [List.drop_zero]
    exact List.take_of_length_le (by omega)
  rw [hslice]
  rw [if_neg hne]
  have hblank : blankJoin words = false := blankJoin_eq_false hne ht
  rw [hblank]
  have hbreak : ¬ (words.length < overlap ∧ 0 < 0) := by omega
  rw [if_neg hbreak]
  have hnext : chunkLoop words maxWords overlap words.length (0 + chunkStep maxWords overlap) = [] := by
    match hfw : words.length, hpos with
    | n + 1, _ =>
      unfold chunkLoop
      rw [if_neg]
      omega
  rw [hnext]
  simp

/-- One loop iteration with tokens remaining: the window at `start` is
emitted and the loop either breaks or continues at `start + step`. -/
theorem chunkLoop_eq_cons (words : List String) (m o : Nat) (ht : Tokenized words)
    (hm : 0 < m) (fuel start : Nat) (hs : start < words.length) :
    chunkLoop words m o (fuel + 1) start
      = ((words.drop start).take m) ::
        (if ((words.drop start).take m).length < o ∧ 0 < start then []
         else chunkLoop words m o fuel (start + chunkStep m o)) := by
  have hdrop : words.drop start ≠ [] := by
    simp only [ne_eq, List.drop_eq_nil_iff]
    omega
  have hsl : (words.drop start).take m ≠ [] := by
    simp only [ne_eq, List.take_eq_nil_iff]
    push_neg
    exact ⟨by omega, hdrop⟩
  have hblank : blankJoin ((words.drop start).take m) = false :=
    blankJoin_eq_false hsl
      (fun w hw => ht w (List.mem_of_mem_drop (List.mem_of_mem_take hw)))
  conv_lhs => rw [chunkLoop]
  rw [if_pos hs]
  rw [if_neg hsl, hblank]
  simp only [Bool.false_eq_true, if_false]

theorem chunkLoop_stop (words : List String) (m o fuel start : Nat)
    (hs : ¬ start < words.length) : chunkLoop words m o (fuel + 1) start = [] := by
  unfold chunkLoop
  rw [if_neg hs]

/-- Adjacent chunks emitted by the loop always satisfy
`c.drop (m - o) = d.take o`; for a full-length chunk `c` this is exactly the
overlap property. -/
theorem chunkLoop_chain (words : List String) (m o : Nat) (hmo : o < m)
    (ht : Tokenized words) :
    ∀ fuel start, List.Chain' (fun c d => c.drop (m - o) = d.take o)
      (chunkLoop words m o fuel start) := by
  intro fuel
  induction fuel with
  | zero =>
    intro start
    show List.Chain' _ []
    exact List.chain'_nil
  | succ f ih =>
    intro start
    by_cases hs : start < words.length
    · rw [chunkLoop_eq_cons words m o ht (by omega) f start hs]
      refine List.chain'_cons'.mpr ⟨?_, ?_⟩
      · intro y hy
        by_cases hbr : (((words.drop start).take m).length < o ∧ 0 < start)
        · rw [if_pos hbr] at hy
          simp at hy
        · rw [if_neg hbr] at hy
          match f with
          | 0 => simp [chunkLoop] at hy
          | f2 + 1 =>
            by_cases hs2 : start + chunkStep m o < words.length
            · rw [chunkLoop_eq_cons words m o ht (by omega) f2 _ hs2] at hy
              simp only [List.head?_cons, Option.mem_def, Option.some.injEq] at hy
              subst hy
              have hstep : chunkStep m o = m - o := by simp [chunkStep, hmo]
              rw [hstep, List.drop_take, List.drop_drop, List.take_take]
              congr 1
              omega
            · rw [chunkLoop_stop words m o f2 _ hs2] at hy
              simp at hy
      · by_cases hbr : (((words.drop start).take m).length < o ∧ 0 < start)
        · rw [if_pos hbr]
          exact List.chain'_nil
        · rw [if_neg hbr]
          exact ih _
    · rw [chunkLoop_stop words m o f start hs]
      exact List.chain'_nil

/-- Last `o` words of a chunk, as in the spec's overlap property. -/
def lastWords (o : Nat) (c : List String) : List String :=
  c.drop (c.length - o)

/-- C8 (amended): for chunking parameters maxWords=m, overlap=o with m > o,
and every chunk i that is not the final chunk and consists of exactly m
words, the last o words of chunk i equal the first o words of chunk i+1.
(The claim as stated, without the full-length proviso on chunk i, fails:
the loop can emit a short non-final window.) -/
theorem chunkContent_overlap (words : List String) (maxWords overlap : Nat)
    (hmo : overlap < maxWords) (ht : Tokenized words) (i : Nat)
    (hi : i + 1 < (chunkContent words maxWords overlap).length)
    (hfull : ((chunkContent words maxWords overlap).getD i []).length = maxWords) :
    lastWords overlap ((chunkContent words maxWords overlap).getD i [])
      = ((chunkContent words maxWords overlap).getD (i + 1) []).take overlap := by
  have hchain : List.Chain' (fun c d => c.drop (maxWords - overlap) = d.take overlap)
      (chunkContent words maxWords overlap) := by
    unfold chunkContent
    by_cases hw : words = []
    · rw [if_pos hw]
      exact List.chain'_nil
    · rw [if_neg hw]
      exact chunkLoop_chain words maxWords overlap hmo ht _ _
  have hlt : i < (chunkContent words maxWords overlap).length := by omega
  have hlt1 : i + 1 < (chunkContent words maxWords overlap).length := hi
  have hrel := List.chain'_iff_get.mp hchain i (by omega)
  rw [List.getD_eq_get _ _ hlt, List.getD_eq_get _ _ hlt1]
  unfold lastWords
  rw [List.getD_eq_get _ _ hlt] at hfull
  rw [hfull]
  exact hrel

/-- C8 counterexample: with maxWords=10, overlap=4 on a 13-token text the
loop emits the windows [0:10], [6:13], [12:13]; chunk 1 is not final but has
only 7 words, and its last 4 words differ from the first 4 words of chunk 2. -/
theorem c8_counterexample :
    (4 < 10 ∧ Tokenized (List.replicate 13 "w")
        ∧ 1 + 1 < (chunkContent (List.replicate 13 "w") 10 4).length)
      ∧ lastWords 4 ((chunkContent (List.replicate 13 "w") 10 4).getD 1 [])
          ≠ ((chunkContent (List.replicate 13 "w") 10 4).getD 2 []).take 4 := by
  refine ⟨⟨by decide, by decide, by decide⟩, by decide⟩

theorem c8_witness :
    lastWords 1 ((chunkContent ["a", "b", "c", "d", "e", "f", "g"] 3 1).getD 0 [])
      = ((chunkContent ["a", "b", "c", "d", "e", "f", "g"] 3 1).getD 1 []).take 1 :=
  chunkContent_overlap ["a", "b", "c", "d", "e", "f", "g"] 3 1 (by decide) (by decide)
    0 (by decide) (by decide)

/-- C7 counterexample: a text of 8 words (fewer than maxWords=10) chunked
with maxWords=10, overlap=4 yields two chunks, not one: the window at
start=0 covers all 8 words, yet the loop still emits the tail window at
start=6 before its break condition fires. -/
theorem c7_counterexample :
    (List.replicate 8 "w" ≠ [] ∧ Tokenized (List.replicate 8 "w")
        ∧ (List.replicate 8 "w").length < 10 ∧ 4 < 10)
      ∧ (chunkContent (List.replicate 8 "w") 10 4).length ≠ 1 := by
  refine ⟨⟨by decide, by decide, by decide, by decide⟩, by decide⟩

theorem c7_witness : chunkContent ["a", "b"] 10 4 = [["a", "b"]] :=
  chunkContent_short ["a", "b"] 10 4 (by decide) (by decide) (by decide) (by decide)

/-! ### Reciprocal Rank Fusion: `RAGService._hybrid_search`, rag.py lines 53-79

The two ranked subqueries each deliver rows `(chunk_id, rank)` with ranks
starting at 1; `ranked_chunks` is their concatenation (`union_all` of the
vector rows and the full-text rows).  The fusion loop accumulates
`rrf_scores[id] += 1 / (60 + rank)` in a dict (keys in first-appearance
order) and sorts the keys by descending score with Python's stable sort,
modelled by `List.insertionSort` with the reflexive-total relation
"score a ≥ score b" (any stable sort agrees with it). -/

/-- Rows `(chunk_id, rank)` of one ranked source, ranks `r, r+1, ...`. -/
def rankRows : List Nat → Nat → List (Nat × Nat)
  | [], _ => []
  | c :: t, r => (c, r) :: rankRows t (r + 1)

/-- The concatenated `ranked_chunks` rows of the vector and full-text
subqueries (rag.py line 49: `union_all(vector, fulltext)`). -/
def hybridRankRows (vectorRanked lexicalRanked : List Nat) : List (Nat × Nat) :=
  rankRows vectorRanked 1 ++ rankRows lexicalRanked 1

/-- The accumulated RRF score of chunk `c`:
`rrf_scores[id] += 1 / (k + rank)` with `k = 60` (rag.py lines 54-57). -/
def rrfScore (rows : List (Nat × Nat)) (c : Nat) : ℚ :=
  ((rows.filter (fun p => p.1 = c)).map (fun p => (1 : ℚ) / (60 + (p.2 : ℚ)))).sum

/-- Keys of the `rrf_scores` dict in first-appearance (insertion) order. -/
def dictKeys : List (Nat × Nat) → List Nat
  | [] => []
  | p :: rest => p.1 :: (dictKeys rest).filter (fun c => ¬ (c = p.1))

/-- Comparison used by `sorted(..., key=lambda id: rrf_scores[id],
reverse=True)`: descending fused score. -/
def fuseRel (rows : List (Nat × Nat)) : Nat → Nat → Prop :=
  fun a b => rrfScore rows b ≤ rrfScore rows a

instance (rows : List (Nat × Nat)) : DecidableRel (fuseRel rows) :=
  fun a b => inferInstanceAs (Decidable (_ ≤ _))

instance (rows : List (Nat × Nat)) : IsTotal Nat (fuseRel rows) :=
  ⟨fun a b => le_total (rrfScore rows b) (rrfScore rows a)⟩

instance (rows : List (Nat × Nat)) : IsTrans Nat (fuseRel rows) :=
  ⟨fun _ _ _ h1 h2 => le_trans h2 h1⟩

/-- `sorted_chunk_ids` of rag.py line 60: dict keys sorted by descending
RRF score (stable). -/
def fuseRows (rows : List (Nat × Nat)) : List Nat :=
  List.insertionSort (fuseRel rows) (dictKeys rows)

/-- The fusion step on a pair of ranked id lists. -/
def fuse (vectorRanked lexicalRanked : List Nat) : List Nat :=
  fuseRows (hybridRankRows vectorRanked lexicalRanked)

/-- Rank of `c` in the ranked list `l` (1-based), for stating C1. -/
def rankIn (l : List Nat) (c : Nat) : Nat :=
  l.indexOf c + 1

theorem fst_mem_of_mem_rankRows {l : List Nat} :
    ∀ {s : Nat} {p : Nat × Nat}, p ∈ rankRows l s → p.1 ∈ l := by
  induction l with
  | nil => intro s p hp; cases hp
  | cons a t ih =>
    intro s p hp
    rcases List.mem_cons.mp hp with h | h
    · subst h
      exact List.mem_cons_self _ _
    · exact List.mem_cons_of_mem _ (ih h)

theorem filter_rankRows_of_mem {l : List Nat} (hnd : l.Nodup) {c : Nat} (hc : c ∈ l) :
    ∀ s, (rankRows l s).filter (fun p => p.1 = c) = [(c, s + l.indexOf c)] := by
  induction l with
  | nil => cases hc
  | cons a t ih =>
    intro s
    by_cases hac : a = c
    · subst hac
      have hat : a ∉ t := (List.nodup_cons.mp hnd).1
      have hft : (rankRows t (s + 1)).filter (fun p => p.1 = a) = [] := by
        rw [List.filter_eq_nil_iff]
        intro p hp
        simp only [decide_eq_true_eq]
        intro hpa
        exact hat (hpa ▸ fst_mem_of_mem_rankRows hp)
      simp [rankRows, hft, List.indexOf_cons_self]
    · have hct : c ∈ t := by
        rcases List.mem_cons.mp hc with h | h
        · exact absurd h.symm hac
        · exact h
      have hrec := ih (List.nodup_cons.mp hnd).2 hct (s + 1)
      simp only [rankRows, List.filter_cons]
      rw [if_neg (by simpa using hac)]
      rw [hrec, List.indexOf_cons_ne _ hac]
      simp only [List.cons.injEq, Prod.mk.injEq, and_true, true_and]
      omega

theorem filter_rankRows_of_not_mem {l : List Nat} {c : Nat} (hc : c ∉ l) (s : Nat) :
    (rankRows l s).filter (fun p => p.1 = c) = [] := by
  rw [List.filter_eq_nil_iff]
  intro p hp
  simp only [decide_eq_true_eq]
  intro hpa
  exact hc (hpa ▸ fst_mem_of_mem_rankRows hp)

theorem rrfScore_hybrid (vr lr : List Nat) (c : Nat) (hv : vr.Nodup) (hl : lr.Nodup) :
    rrfScore (hybridRankRows vr lr) c
      = (if c ∈ vr then 1 / (60 + (rankIn vr c : ℚ)) else 0)
        + (if c ∈ lr then 1 / (60 + (rankIn lr c : ℚ)) else 0) := by
  unfold rrfScore hybridRankRows
  rw [List.filter_append, List.map_append, List.sum_append]
  congr 1
  · by_cases hc : c ∈ vr
    · rw [filter_rankRows_of_mem hv hc 1, if_pos hc]
      simp only [List.map_cons, List.map_nil, List.sum_cons, List.sum_nil, add_zero, rankIn]
      push_cast
      ring_nf
    · rw [filter_rankRows_of_not_mem hc 1, if_neg hc]
      simp
  · by_cases hc : c ∈ lr
    · rw [filter_rankRows_of_mem hl hc 1, if_pos hc]
      simp only [List.map_cons, List.map_nil, List.sum_cons, List.sum_nil, add_zero, rankIn]
      push_cast
      ring_nf
    · rw [filter_rankRows_of_not_mem hc 1, if_neg hc]
      simp

theorem dictKeys_nodup : ∀ rows : List (Nat × Nat), (dictKeys rows).Nodup := by
  intro rows
  induction rows with
  | nil => exact List.nodup_nil
  | cons p rest ih =>
    rw [dictKeys, List.nodup_cons]
    constructor
    · intro hmem
      have := List.of_mem_filter hmem
      simp at this
    · exact ih.filter _

theorem mem_dictKeys : ∀ (rows : List (Nat × Nat)) (c : Nat),
    c ∈ dictKeys rows ↔ c ∈ rows.map Prod.fst := by
  intro rows
  induction rows with
  | nil => intro c; simp [dictKeys]
  | cons p rest ih =>
    intro c
    rw [dictKeys, List.map_cons]
    by_cases hc : c = p.1
    · subst hc
      simp
    · simp only [List.mem_cons, List.mem_filter, ih c, decide_eq_true_eq]
      constructor
      · rintro (h | ⟨h, _⟩)
        · exact Or.inl h
        · exact Or.inr h
      · rintro (h | h)
        · exact Or.inl h
        · exact Or.inr ⟨h, by simpa using hc⟩

/-- C1: for every pair of ranked inputs, the fusion step of
`RAGService._hybrid_search` gives each chunk `c` the score
`sum over sources containing c at rank r of 1 / (60 + r)` and returns the
chunk ids in descending order of that score; on vectorRanked = [A,B,C] and
lexicalRanked = [C,A,B] (A=0, B=1, C=2) the scores are A: 1/61 + 1/62,
B: 1/62 + 1/63, C: 1/63 + 1/61 and the output order is A, C, B. -/
theorem c1_rrf_fusion :
    (∀ vr lr c, vr.Nodup → lr.Nodup →
        rrfScore (hybridRankRows vr lr) c
          = (if c ∈ vr then 1 / (60 + (rankIn vr c : ℚ)) else 0)
            + (if c ∈ lr then 1 / (60 + (rankIn lr c : ℚ)) else 0))
    ∧ (∀ vr lr, (fuse vr lr).Pairwise
        (fun a b => rrfScore (hybridRankRows vr lr) b ≤ rrfScore (hybridRankRows vr lr) a))
    ∧ (rrfScore (hybridRankRows [0, 1, 2] [2, 0, 1]) 0 = 1 / 61 + 1 / 62
        ∧ rrfScore (hybridRankRows [0, 1, 2] [2, 0, 1]) 1 = 1 / 62 + 1 / 63
        ∧ rrfScore (hybridRankRows [0, 1, 2] [2, 0, 1]) 2 = 1 / 63 + 1 / 61)
    ∧ fuse [0, 1, 2] [2, 0, 1] = [0, 2, 1] := by
  refine ⟨fun vr lr c hv hl => rrfScore_hybrid vr lr c hv hl, fun vr lr => ?_, ?_, ?_⟩
  · exact List.sorted_insertionSort (fuseRel (hybridRankRows vr lr)) (dictKeys (hybridRankRows vr lr))
  · refine ⟨?_, ?_, ?_⟩ <;> norm_num [rrfScore, hybridRankRows, rankRows]
  · norm_num [fuse, fuseRows, dictKeys, hybridRankRows, rankRows, List.insertionSort,
      List.orderedInsert, fuseRel, rrfScore]

theorem c1_witness :
    rrfScore (hybridRankRows [5, 7] [7, 5]) 5
      = (if 5 ∈ [5, 7] then 1 / (60 + (rankIn [5, 7] 5 : ℚ)) else 0)
        + (if 5 ∈ [7, 5] then 1 / (60 + (rankIn [7, 5] 5 : ℚ)) else 0) :=
  c1_rrf_fusion.1 [5, 7] [7, 5] 5 (by decide) (by decide)

/-! ### Hybrid search: `RAGService._hybrid_search`, rag.py lines 22-79

Each branch is a SQL subquery over the `chunks` table filtered by
`tenant_id == tenant_id, kb_id == kb_id` (the full-text branch additionally
by `content_tsv.match(query)`), ordered by a per-chunk SQL score (cosine
distance of the stored embedding to the query vector, resp. `ts_rank_cd`
descending), limited to `top_k`, with `rank()` computed over the ordering.
The per-chunk scores depend only on the chunk and the query, so they are
modelled as function parameters `vscore`, `fscore` (and the match predicate
as `fmatch`); `rank()` assigns `1 + number of strictly better rows`.
`chunk_map[chunk_id]` (built from `Chunk.id.in_(sorted_chunk_ids)`) is
modelled by `find?` on the chunk id, which always succeeds for the ids the
branches produce. -/

/-- A row of the `chunks` table, with the fields hybrid search reads. -/
structure ChunkRow where
  id : Nat
  tenant : Nat
  kb : Nat
  docId : Nat
  content : String
deriving DecidableEq, Repr

/-- The `RAGSource` response projection (schemas/models.py). -/
structure Source where
  document_id : Nat
  chunk_id : Nat
  content : String
deriving DecidableEq, Repr

/-- Rows passing `Chunk.tenant_id == tenant_id, Chunk.kb_id == kb_id`. -/
def tenantKbFilter (db : List ChunkRow) (t kb : Nat) : List ChunkRow :=
  db.filter (fun c => decide (c.tenant = t ∧ c.kb = kb))

/-- Ascending cosine distance, the vector subquery ordering. -/
def vectorRel (vscore : ChunkRow → ℚ) : ChunkRow → ChunkRow → Prop :=
  fun a b => vscore a ≤ vscore b

instance (vscore : ChunkRow → ℚ) : DecidableRel (vectorRel vscore) :=
  fun a b => inferInstanceAs (Decidable (_ ≤ _))

instance (vscore : ChunkRow → ℚ) : IsTotal ChunkRow (vectorRel vscore) :=
  ⟨fun a b => le_total (vscore a) (vscore b)⟩

instance (vscore : ChunkRow → ℚ) : IsTrans ChunkRow (vectorRel vscore) :=
  ⟨fun _ _ _ h1 h2 => le_trans h1 h2⟩

/-- Descending `ts_rank_cd`, the full-text subquery ordering. -/
def fulltextRel (fscore : ChunkRow → ℚ) : ChunkRow → ChunkRow → Prop :=
  fun a b => fscore b ≤ fscore a

instance (fscore : ChunkRow → ℚ) : DecidableRel (fulltextRel fscore) :=
  fun a b => inferInstanceAs (Decidable (_ ≤ _))

instance (fscore : ChunkRow → ℚ) : IsTotal ChunkRow (fulltextRel fscore) :=
  ⟨fun a b => le_total (fscore b) (fscore a)⟩

instance (fscore : ChunkRow → ℚ) : IsTrans ChunkRow (fulltextRel fscore) :=
  ⟨fun _ _ _ h1 h2 => le_trans h2 h1⟩

/-- The vector subquery: `(id, rank)` rows, tenant/kb-filtered, ordered by
cosine distance, limited to `top_k` (rag.py lines 26-34). -/
def vectorBranch (db : List ChunkRow) (t kb : Nat) (vscore : ChunkRow → ℚ) (k : Nat) :
    List (Nat × Nat) :=
  ((List.insertionSort (vectorRel vscore) (tenantKbFilter db t kb)).take k).map
    (fun c => (c.id,
      1 + ((tenantKbFilter db t kb).filter (fun d => decide (vscore d < vscore c))).length))

/-- The full-text subquery: additionally filtered by the tsquery match,
ordered by `ts_rank_cd` descending (rag.py lines 37-46). -/
def fulltextBranch (db : List ChunkRow) (t kb : Nat) (fscore : ChunkRow → ℚ)
    (fmatch : ChunkRow → Bool) (k : Nat) : List (Nat × Nat) :=
  ((List.insertionSort (fulltextRel fscore) (tenantKbFilter (db.filter fmatch) t kb)).take k).map
    (fun c => (c.id,
      1 + ((tenantKbFilter (db.filter fmatch) t kb).filter
        (fun d => decide (fscore c < fscore d))).length))

/-- `chunk_map[chunk_id]` lookup (rag.py lines 63-66): the first `chunks`
row carrying the id. -/
def lookupChunk (db : List ChunkRow) (cid : Nat) : Option ChunkRow :=
  db.find? (fun c => decide (c.id = cid))

/-- `RAGService._hybrid_search`: fuse the two ranked subqueries with RRF and
project the winning chunk rows to sources, truncated to `top_k`. -/
def hybridSearch (db : List ChunkRow) (t kb : Nat) (vscore fscore : ChunkRow → ℚ)
    (fmatch : ChunkRow → Bool) (k : Nat) : List Source :=
  ((fuseRows (vectorBranch db t kb vscore k ++ fulltextBranch db t kb fscore fmatch k)).filterMap
    (fun cid => (lookupChunk db cid).map
      (fun c => ({ document_id := c.docId, chunk_id := cid, content := c.content } : Source)))).take k

/-- `RAGService.search` (rag.py lines 81-82): it takes no search-mode
argument and unconditionally delegates to `_hybrid_search`. -/
def search (db : List ChunkRow) (t kb : Nat) (vscore fscore : ChunkRow → ℚ)
    (fmatch : ChunkRow → Bool) (k : Nat) : List Source :=
  hybridSearch db t kb vscore fscore fmatch k

theorem fuseRows_nodup (rows : List (Nat × Nat)) : (fuseRows rows).Nodup :=
  List.Perm.nodup (List.perm_insertionSort _ _).symm (dictKeys_nodup rows)

theorem mem_fuseRows {rows : List (Nat × Nat)} {c : Nat} (hc : c ∈ fuseRows rows) :
    c ∈ rows.map Prod.fst :=
  (mem_dictKeys rows c).mp ((List.perm_insertionSort _ _).mem_iff.mp hc)

theorem chunkId_filterMap_sublist (db : List ChunkRow) :
    ∀ ids : List Nat,
      List.Sublist ((ids.filterMap (fun cid => (lookupChunk db cid).map
        (fun c => ({ document_id := c.docId, chunk_id := cid, content := c.content } : Source)))).map
          (fun s => s.chunk_id)) ids := by
  intro ids
  induction ids with
  | nil => simp
  | cons cid rest ih =>
    rw [List.filterMap_cons]
    cases hfind : lookupChunk db cid with
    | none => simpa using List.Sublist.cons cid ih
    | some c => simpa using List.Sublist.cons₂ cid ih

/-- C10: the source list returned by `_hybrid_search` names each chunk id at
most once (candidates present in both ranked inputs are merged into one
entry of the score dict) and has length at most the requested `top_k`. -/
theorem c10_unique_bounded (db : List ChunkRow) (t kb : Nat) (vscore fscore : ChunkRow → ℚ)
    (fmatch : ChunkRow → Bool) (k : Nat) :
    ((hybridSearch db t kb vscore fscore fmatch k).map (fun s => s.chunk_id)).Nodup
      ∧ (hybridSearch db t kb vscore fscore fmatch k).length ≤ k := by
  constructor
  · unfold hybridSearch
    rw [List.map_take]
    have h1 := chunkId_filterMap_sublist db
      (fuseRows (vectorBranch db t kb vscore k ++ fulltextBranch db t kb fscore fmatch k))
    exact List.Sublist.nodup (List.Sublist.trans (List.take_sublist _ _) h1) (fuseRows_nodup _)
  · exact List.length_take_le _ _

theorem find?_append_left {α : Type} (l1 l2 : List α) (p : α → Bool)
    (h : (l1.find? p).isSome) : (l1 ++ l2).find? p = l1.find? p := by
  induction l1 with
  | nil => simp at h
  | cons a t ih =>
    simp only [List.cons_append, List.find?_cons] at h ⊢
    cases hpa : p a with
    | true => rfl
    | false =>
      rw [hpa] at h
      exact ih h

theorem lookupChunk_eq_of_mem {db : List ChunkRow}
    (hnd : (db.map (fun c => c.id)).Nodup) {ch : ChunkRow} (hch : ch ∈ db) :
    lookupChunk db ch.id = some ch := by
  induction db with
  | nil => cases hch
  | cons d rest ih =>
    rw [List.map_cons, List.nodup_cons] at hnd
    unfold lookupChunk
    rw [List.find?_cons]
    by_cases hd : d.id = ch.id
    · rcases List.mem_cons.mp hch with h | h
      · rw [h] at hd ⊢
        simp
      · exact absurd (hd ▸ List.mem_map_of_mem (fun c => c.id) h) hnd.1
    · have hne : ch ≠ d := fun he => hd (he ▸ rfl)
      have hcr : ch ∈ rest := by
        rcases List.mem_cons.mp hch with h | h
        · exact absurd h hne
        · exact h
      rw [show (decide (d.id = ch.id)) = false by simpa using hd]
      exact ih hnd.2 hcr

theorem mem_vectorBranch {db : List ChunkRow} {t kb : Nat} {vscore : ChunkRow → ℚ}
    {k : Nat} {p : Nat × Nat} (hp : p ∈ vectorBranch db t kb vscore k) :
    ∃ c ∈ db, c.id = p.1 ∧ c.tenant = t ∧ c.kb = kb := by
  obtain ⟨c, hc, hcp⟩ := List.mem_map.mp hp
  have hc2 : c ∈ List.insertionSort (vectorRel vscore) (tenantKbFilter db t kb) :=
    List.mem_of_mem_take hc
  have hc3 : c ∈ tenantKbFilter db t kb := (List.perm_insertionSort _ _).mem_iff.mp hc2
  have hc4 := List.mem_filter.mp hc3
  refine ⟨c, hc4.1, ?_, ?_, ?_⟩
  · rw [← hcp]
  · exact (of_decide_eq_true hc4.2).1
  · exact (of_decide_eq_true hc4.2).2

theorem mem_fulltextBranch {db : List ChunkRow} {t kb : Nat} {fscore : ChunkRow → ℚ}
    {fmatch : ChunkRow → Bool} {k : Nat} {p : Nat × Nat}
    (hp : p ∈ fulltextBranch db t kb fscore fmatch k) :
    ∃ c ∈ db, c.id = p.1 ∧ c.tenant = t ∧ c.kb = kb := by
  obtain ⟨c, hc, hcp⟩ := List.mem_map.mp hp
  have hc2 : c ∈ List.insertionSort (fulltextRel fscore) (tenantKbFilter (db.filter fmatch) t kb) :=
    List.mem_of_mem_take hc
  have hc3 : c ∈ tenantKbFilter (db.filter fmatch) t kb :=
    (List.perm_insertionSort _ _).mem_iff.mp hc2
  have hc4 := List.mem_filter.mp hc3
  refine ⟨c, (List.mem_filter.mp hc4.1).1, ?_, ?_, ?_⟩
  · rw [← hcp]
  · exact (of_decide_eq_true hc4.2).1
  · exact (of_decide_eq_true hc4.2).2

theorem mem_hybrid_ids {db : List ChunkRow} {t kb : Nat} {vscore fscore : ChunkRow → ℚ}
    {fmatch : ChunkRow → Bool} {k : Nat} {cid : Nat}
    (h : cid ∈ fuseRows (vectorBranch db t kb vscore k ++ fulltextBranch db t kb fscore fmatch k)) :
    ∃ c ∈ db, c.id = cid ∧ c.tenant = t ∧ c.kb = kb := by
  have h1 := mem_fuseRows h
  rw [List.map_append] at h1
  rcases List.mem_append.mp h1 with h2 | h2
  · obtain ⟨p, hp, hpc⟩ := List.mem_map.mp h2
    exact hpc ▸ mem_vectorBranch hp
  · obtain ⟨p, hp, hpc⟩ := List.mem_map.mp h2
    exact hpc ▸ mem_fulltextBranch hp

theorem tenantKbFilter_append_other {db1 db2 : List ChunkRow} {t kb : Nat}
    (h2 : ∀ c ∈ db2, c.tenant ≠ t) :
    tenantKbFilter (db1 ++ db2) t kb = tenantKbFilter db1 t kb := by
  unfold tenantKbFilter
  rw [List.filter_append]
  have hnil : db2.filter (fun c => decide (c.tenant = t ∧ c.kb = kb)) = [] := by
    rw [List.filter_eq_nil_iff]
    intro c hc
    simp only [decide_eq_true_eq, not_and]
    exact fun h _ => h2 c hc h
  rw [hnil, List.append_nil]

theorem vectorBranch_append_other {db1 db2 : List ChunkRow} {t kb : Nat}
    {vscore : ChunkRow → ℚ} {k : Nat} (h2 : ∀ c ∈ db2, c.tenant ≠ t) :
    vectorBranch (db1 ++ db2) t kb vscore k = vectorBranch db1 t kb vscore k := by
  unfold vectorBranch
  rw [tenantKbFilter_append_other h2]

theorem fulltextBranch_append_other {db1 db2 : List ChunkRow} {t kb : Nat}
    {fscore : ChunkRow → ℚ} {fmatch : ChunkRow → Bool} {k : Nat}
    (h2 : ∀ c ∈ db2, c.tenant ≠ t) :
    fulltextBranch (db1 ++ db2) t kb fscore fmatch k = fulltextBranch db1 t kb fscore fmatch k := by
  unfold fulltextBranch
  rw [List.filter_append,
    tenantKbFilter_append_other (fun c hc => h2 c (List.mem_of_mem_filter hc))]

/-- C6: tenant isolation of `_hybrid_search`.  First conjunct: under the
chunk-id primary-key invariant, every returned source corresponds to a chunk
row of the queried tenant and knowledge base, so no chunk of another tenant
ever appears.  Second conjunct: the result is unchanged by adding (or
removing) chunk rows of other tenants, even rows whose kb id collides with
the queried kb — both subqueries filter on `tenant_id` and `kb_id`. -/
theorem c6_tenant_isolation :
    (∀ (db : List ChunkRow) (t kb : Nat) (vscore fscore : ChunkRow → ℚ)
        (fmatch : ChunkRow → Bool) (k : Nat),
      (db.map (fun c => c.id)).Nodup →
      ∀ s ∈ hybridSearch db t kb vscore fscore fmatch k,
        ∃ c ∈ db, c.id = s.chunk_id ∧ c.tenant = t ∧ c.kb = kb)
    ∧ (∀ (db1 db2 : List ChunkRow) (t kb : Nat) (vscore fscore : ChunkRow → ℚ)
        (fmatch : ChunkRow → Bool) (k : Nat),
      (∀ c ∈ db2, c.tenant ≠ t) →
      hybridSearch (db1 ++ db2) t kb vscore fscore fmatch k
        = hybridSearch db1 t kb vscore fscore fmatch k) := by
  constructor
  · intro db t kb vscore fscore fmatch k hnd s hs
    have hs1 := List.mem_of_mem_take hs
    obtain ⟨cid, hcid, hmap⟩ := List.mem_filterMap.mp hs1
    obtain ⟨ch, hch, hchid, hcht, hchkb⟩ := mem_hybrid_ids hcid
    have hlook : lookupChunk db cid = some ch := hchid ▸ lookupChunk_eq_of_mem hnd hch
    rw [hlook] at hmap
    simp only [Option.map_some', Option.some.injEq] at hmap
    refine ⟨ch, hch, ?_, hcht, hchkb⟩
    rw [← hmap, hchid]
  · intro db1 db2 t kb vscore fscore fmatch k h2
    unfold hybridSearch
    rw [vectorBranch_append_other h2, fulltextBranch_append_other h2]
    congr 1
    apply List.filterMap_congr
    intro cid hcid
    obtain ⟨c, hc, hcid2, _, _⟩ := mem_hybrid_ids hcid
    have hsome : (db1.find? (fun d => decide (d.id = cid))).isSome := by
      rw [List.find?_isSome]
      exact ⟨c, hc, by simpa using hcid2⟩
    unfold lookupChunk
    rw [find?_append_left _ _ _ hsome]

theorem c6_witness :
    hybridSearch ([⟨1, 10, 20, 100, "x"⟩] ++ [⟨2, 11, 20, 200, "y"⟩]) 10 20
        (fun _ => 0) (fun _ => 0) (fun _ => true) 5
      = hybridSearch [⟨1, 10, 20, 100, "x"⟩] 10 20 (fun _ => 0) (fun _ => 0) (fun _ => true) 5 :=
  c6_tenant_isolation.2 [⟨1, 10, 20, 100, "x"⟩] [⟨2, 11, 20, 200, "y"⟩] 10 20
    (fun _ => 0) (fun _ => 0) (fun _ => true) 5 (by decide)

/-! ### Reranking and `RAGService.answer`, rag.py lines 84-116, rerank.py

`RerankingService.model` is a `cached_property` that RAISES (an
`ImportError`, or whatever `CrossEncoder(model_name)` raises) when the
relevance model cannot be loaded; it never returns a falsy value.  We model
the outcome of evaluating that property as
`Except String (String → String → ℚ)`: either the exception message or the
loaded model's pairwise predict function.  `answer` evaluates
`use_rerank and self.reranker.model` with no try/except around it, so a
load failure propagates out of `answer` (modelled by `Except.error`). -/

/-- Ordering of `sorted(range(len(scores)), key=lambda i: scores[i],
reverse=True)` in `RerankingService.score_and_sort`. -/
def rerankRel (predict : String → String → ℚ) (query : String) (contents : List String) :
    Nat → Nat → Prop :=
  fun i j => predict query (contents.getD j "") ≤ predict query (contents.getD i "")

instance (predict : String → String → ℚ) (query : String) (contents : List String) :
    DecidableRel (rerankRel predict query contents) :=
  fun a b => inferInstanceAs (Decidable (_ ≤ _))

/-- `RerankingService.score_and_sort`: indices of the contents sorted by
descending pairwise relevance score, stable. -/
def scoreAndSort (predict : String → String → ℚ) (query : String)
    (contents : List String) : List Nat :=
  if contents = [] then []
  else List.insertionSort (rerankRel predict query contents) (List.range contents.length)

/-- `RAGService.rerank` (rag.py lines 84-93): reorder the sources by the
reranked indices and truncate to `top_k`. -/
def rerank (predict : String → String → ℚ) (query : String) (sources : List Source)
    (k : Nat) : List Source :=
  if sources = [] then []
  else ((scoreAndSort predict query (sources.map (fun s => s.content))).filterMap
    (fun i => sources.get? i)).take k

/-- The retrieval part of `RAGService.answer` (rag.py lines 104-111):
retrieve `top_k * 5` candidates, then rerank when `use_rerank` is set and
the reranker model loads, else truncate the fused order to `top_k`.
Evaluating `self.reranker.model` raises when the model is unavailable, and
nothing catches the exception. -/
def answerSources (db : List ChunkRow) (t kb : Nat) (vscore fscore : ChunkRow → ℚ)
    (fmatch : ChunkRow → Bool) (query : String) (topK : Nat) (useRerank : Bool)
    (model : Except String (String → String → ℚ)) : Except String (List Source) :=
  let sources := search db t kb vscore fscore fmatch (topK * 5)
  if useRerank then
    match model with
    | .error e => .error e
    | .ok predict => .ok (rerank predict query sources topK)
  else .ok (sources.take topK)

/-- C4: refuted (code bug).  When `use_rerank` is set and the reranker's
relevance model is unavailable, evaluating `self.reranker.model` raises and
`RAGService.answer` has no handler: the query fails with the reranker's
error instead of returning the fusion engine's pre-rerank order truncated
to the requested count, contradicting the claimed fallback. -/
theorem c4_rerank_failure_escalates :
    ∀ (db : List ChunkRow) (t kb : Nat) (vscore fscore : ChunkRow → ℚ)
      (fmatch : ChunkRow → Bool) (query : String) (topK : Nat) (e : String),
      answerSources db t kb vscore fscore fmatch query topK true (.error e) = .error e
      ∧ answerSources db t kb vscore fscore fmatch query topK true (.error e)
          ≠ .ok ((search db t kb vscore fscore fmatch (topK * 5)).take topK) := by
  intro db t kb vscore fscore fmatch query topK e
  refine ⟨rfl, ?_⟩
  intro h
  simp [answerSources] at h

/-- A three-chunk knowledge base of tenant 1 / kb 1, used to exercise the
search-mode claim: the vector ordering (`vscore` ascending) ranks the chunks
0, 1, 2 and the lexical ordering (`fscore` descending) ranks them 2, 0, 1. -/
def dbThree : List ChunkRow :=
  [⟨0, 1, 1, 100, "a"⟩, ⟨1, 1, 1, 101, "b"⟩, ⟨2, 1, 1, 102, "c"⟩]

/-- C5: refuted (code bug).  `RAGService.search` accepts no search-mode
argument and always runs `_hybrid_search` (and `routes.rag_query` passes
`payload.search_type` to an `answer` that does not accept it).  On `dbThree`
a request that the claim says should be served from the vector ranking alone
(order 0, 1, 2) actually returns the RRF-fused order 0, 2, 1: the lexical
branch influences every query, whatever mode was requested. -/
theorem c5_search_ignores_mode :
    ((search dbThree 1 1 (fun c => (c.id : ℚ))
        (fun c => if c.id = 2 then 3 else if c.id = 0 then 2 else 1)
        (fun _ => true) 3).map (fun s => s.chunk_id)) = [0, 2, 1]
    ∧ ((search dbThree 1 1 (fun c => (c.id : ℚ))
        (fun c => if c.id = 2 then 3 else if c.id = 0 then 2 else 1)
        (fun _ => true) 3).map (fun s => s.chunk_id)) ≠ [0, 1, 2] := by
  have h : ((search dbThree 1 1 (fun c => (c.id : ℚ))
      (fun c => if c.id = 2 then 3 else if c.id = 0 then 2 else 1)
      (fun _ => true) 3).map (fun s => s.chunk_id)) = [0, 2, 1] := by
    norm_num [search, hybridSearch, dbThree, vectorBranch, fulltextBranch, tenantKbFilter,
      lookupChunk, fuseRows, dictKeys, rrfScore, fuseRel, vectorRel, fulltextRel,
      List.insertionSort, List.orderedInsert]
    decide
  exact ⟨h, by rw [h]; decide⟩

/-! ### Ingestion pipeline state machine: ingestion.py and routes.py

Database state is the list of `documents` rows and `chunks` rows.  The
`doc_metadata` JSON map is modelled by its three relevant entries
(`ingestion_attempts`, `last_error`, `idempotency_key`); an absent entry is
`none`.  The outcomes of the external steps are parameters:
`extractChunks` is the combined result of `_extract_text` followed by
`_chunk_content` (either the exception text or the produced chunk list) and
`embedResult` is the result of `EmbeddingService.embed_texts` (either the
exception text or, per the embedding provider's declared contract of one
order-preserving vector per input text, the per-text embedding function).
`process_url` has the same control flow as `process_uploaded_file` and is
covered by the same model. -/

/-- A `documents` row. -/
structure DocRow where
  id : Nat
  tenant : Nat
  kb : Nat
  filename : String
  status : String
  attempts : Option Nat
  lastError : Option String
  idemKey : Option String
deriving DecidableEq, Repr

/-- A `chunks` row as written by the ingestion pipeline. -/
structure IngChunkRow where
  docId : Nat
  tenant : Nat
  kb : Nat
  content : String
  embedding : Option (List ℚ)
deriving DecidableEq, Repr

/-- The mutable database state seen by the pipeline. -/
structure DbState where
  docs : List DocRow
  chunks : List IngChunkRow
deriving DecidableEq, Repr

/-- Update the documents row with the given id in place. -/
def updateDoc (st : DbState) (docId : Nat) (f : DocRow → DocRow) : DbState :=
  { st with docs := st.docs.map (fun d => if d.id = docId then f d else d) }

/-- `IngestionPipeline.mark_failed` (ingestion.py lines 75-82): set status
FAILED and merge `last_error` into the metadata; a no-op when the document
row does not exist. -/
def markFailed (st : DbState) (docId : Nat) (reason : String) : DbState :=
  if (st.docs.find? (fun d => decide (d.id = docId))).isSome then
    updateDoc st docId (fun d => { d with status := "FAILED", lastError := some reason })
  else st

/-- `IngestionPipeline._increment_attempt` (ingestion.py lines 210-220):
read `ingestion_attempts` with fallback 0, add one, set status PROCESSING. -/
def incrementAttempt (st : DbState) (docId : Nat) : DbState :=
  updateDoc st docId
    (fun d => { d with attempts := some (d.attempts.getD 0 + 1), status := "PROCESSING" })

/-- `IngestionPipeline.process_document` (ingestion.py lines 54-73): in one
transaction, delete the document's prior chunks (filtered by document id
and tenant id), insert the freshly embedded chunk rows, set status READY
and clear `last_error`.  The embeddings are computed before the transaction
starts. -/
def processDocument (st : DbState) (docId : Nat) (chunks : List String)
    (emb : String → List ℚ) : DbState :=
  match st.docs.find? (fun d => decide (d.id = docId)) with
  | none => st
  | some doc =>
    let kept := st.chunks.filter (fun c => decide (¬ (c.docId = docId ∧ c.tenant = doc.tenant)))
    let newRows := chunks.map (fun content =>
      ({ docId := docId, tenant := doc.tenant, kb := doc.kb, content := content,
         embedding := some (emb content) } : IngChunkRow))
    updateDoc { st with chunks := kept ++ newRows } docId
      (fun d => { d with status := "READY", lastError := none })

/-- `IngestionPipeline.process_uploaded_file` (ingestion.py lines 24-37):
extract and chunk, fail on an empty chunk list, then increment the attempt
counter and process; any exception is caught and recorded via
`mark_failed`. -/
def processUploadedFile (st : DbState) (docId : Nat)
    (extractChunks : Except String (List String))
    (embedResult : Except String (String → List ℚ)) : DbState :=
  match extractChunks with
  | .error e => markFailed st docId e
  | .ok chunks =>
    if chunks = [] then markFailed st docId "No text found in document"
    else
      match embedResult with
      | .error e => markFailed (incrementAttempt st docId) docId e
      | .ok emb => processDocument (incrementAttempt st docId) docId chunks emb

/-- The idempotency-key branch of `routes.ingest_document` (routes.py lines
141-180): look up the newest document of this tenant/kb carrying the key
(rows are appended in creation order, so the newest match is the last); a
READY match is returned as-is with no background task; any other match is
reused with status PROCESSING and the new filename; otherwise a fresh
PROCESSING row with `ingestion_attempts = 0` is created.  Returns the
state, the document id, and whether the background task runs. -/
def ingestRequest (st : DbState) (tenant kb : Nat) (filename key : String) (newId : Nat) :
    DbState × Nat × Bool :=
  match (st.docs.filter
      (fun d => decide (d.tenant = tenant ∧ d.kb = kb ∧ d.idemKey = some key))).getLast? with
  | some existing =>
    if existing.status = "READY" then (st, existing.id, false)
    else
      (updateDoc st existing.id (fun d => { d with filename := filename, status := "PROCESSING" }),
        existing.id, true)
  | none =>
    let newDoc : DocRow :=
      { id := newId, tenant := tenant, kb := kb, filename := filename,
        status := "PROCESSING", attempts := some 0, lastError := none, idemKey := some key }
    ({ st with docs := st.docs ++ [newDoc] }, newId, true)

/-- One whole keyed ingestion request: the route handler followed by the
background `process_uploaded_file` task it schedules (when it schedules
one). -/
def ingestWithKey (st : DbState) (tenant kb : Nat) (filename key : String) (newId : Nat)
    (extractChunks : Except String (List String))
    (embedResult : Except String (String → List ℚ)) : DbState :=
  match ingestRequest st tenant kb filename key newId with
  | (st1, docId, run) =>
    if run then processUploadedFile st1 docId extractChunks embedResult else st1

theorem updateDoc_chunks (st : DbState) (docId : Nat) (f : DocRow → DocRow) :
    (updateDoc st docId f).chunks = st.chunks := rfl

theorem markFailed_chunks (st : DbState) (docId : Nat) (reason : String) :
    (markFailed st docId reason).chunks = st.chunks := by
  unfold markFailed
  split <;> rfl

theorem incrementAttempt_chunks (st : DbState) (docId : Nat) :
    (incrementAttempt st docId).chunks = st.chunks := rfl

theorem updateDoc_docs_at {st : DbState} {docId : Nat} {f : DocRow → DocRow}
    {d : DocRow} (hd : d ∈ (updateDoc st docId f).docs) (hdid : d.id = docId)
    (hf : ∀ d0, (f d0).id = d0.id) :
    ∃ d0 ∈ st.docs, d0.id = docId ∧ d = f d0 := by
  obtain ⟨d0, hd0, heq⟩ := List.mem_map.mp hd
  by_cases h : d0.id = docId
  · rw [if_pos h] at heq
    exact ⟨d0, hd0, h, heq.symm⟩
  · rw [if_neg h] at heq
    exact absurd (heq ▸ hdid) h

theorem find?_updateDoc_isSome {st : DbState} {docId : Nat} {f : DocRow → DocRow}
    (hf : ∀ d0, (f d0).id = d0.id) (h : ∃ d0 ∈ st.docs, d0.id = docId) :
    ((updateDoc st docId f).docs.find? (fun d => decide (d.id = docId))).isSome := by
  rw [List.find?_isSome]
  obtain ⟨d0, hd0, hid⟩ := h
  refine ⟨if d0.id = docId then f d0 else d0, List.mem_map_of_mem _ hd0, ?_⟩
  rw [if_pos hid]
  simpa using (hf d0).trans hid

/-- C2: if re-ingestion of a previously READY document fails at the
embedding step (`embed_texts` raises after extraction and chunking
succeeded with a non-empty chunk list), the chunk table is completely
untouched — the document keeps exactly its prior, successful chunk set —
and the document ends FAILED with `last_error` recording the reason. -/
theorem c2_atomic_reprocess (st : DbState) (docId : Nat) (chunks : List String) (e : String)
    (d0 : DocRow) (hd0 : d0 ∈ st.docs) (hid : d0.id = docId) (hready : d0.status = "READY")
    (hch : chunks ≠ []) :
    (processUploadedFile st docId (.ok chunks) (.error e)).chunks = st.chunks
    ∧ ∀ d ∈ (processUploadedFile st docId (.ok chunks) (.error e)).docs,
        d.id = docId → d.status = "FAILED" ∧ d.lastError = some e := by
  have hred : processUploadedFile st docId (.ok chunks) (.error e)
      = markFailed (incrementAttempt st docId) docId e := by
    unfold processUploadedFile
    simp [hch]
  constructor
  · rw [hred, markFailed_chunks, incrementAttempt_chunks]
  · intro d hd hdid
    rw [hred] at hd
    have hsome : (((incrementAttempt st docId).docs.find?
        (fun d => decide (d.id = docId)))).isSome :=
      find?_updateDoc_isSome (fun _ => rfl) ⟨d0, hd0, hid⟩
    unfold markFailed at hd
    rw [if_pos hsome] at hd
    obtain ⟨d1, _, _, heq⟩ := updateDoc_docs_at hd hdid (fun _ => rfl)
    rw [heq]
    exact ⟨rfl, rfl⟩

theorem c2_witness :
    (processUploadedFile
        (DbState.mk [DocRow.mk 1 1 1 "f.txt" "READY" (some 1) none none]
          [IngChunkRow.mk 1 1 1 "old" (some [1])])
        1 (.ok ["new"]) (.error "embedding provider down")).chunks
      = [IngChunkRow.mk 1 1 1 "old" (some [1])] :=
  (c2_atomic_reprocess
    (DbState.mk [DocRow.mk 1 1 1 "f.txt" "READY" (some 1) none none]
      [IngChunkRow.mk 1 1 1 "old" (some [1])])
    1 ["new"] "embedding provider down"
    (DocRow.mk 1 1 1 "f.txt" "READY" (some 1) none none)
    (by decide) rfl rfl (by decide)).1

/-- The §3 invariant: a READY document has at least one associated chunk
with a non-null embedding. -/
def ReadyInv (st : DbState) : Prop :=
  ∀ d ∈ st.docs, d.status = "READY" →
    ∃ c ∈ st.chunks, c.docId = d.id ∧ c.embedding ≠ none

instance (st : DbState) : Decidable (ReadyInv st) :=
  List.decidableBAll _ st.docs

theorem readyInv_updateDoc {st : DbState} {docId : Nat} {f : DocRow → DocRow}
    (hinv : ReadyInv st) (hf : ∀ d0, (f d0).status ≠ "READY" ∧ (f d0).id = d0.id) :
    ReadyInv (updateDoc st docId f) := by
  intro d hd hready
  obtain ⟨d0, hd0, heq⟩ := List.mem_map.mp hd
  by_cases h : d0.id = docId
  · rw [if_pos h] at heq
    exact absurd (heq ▸ hready) (hf d0).1
  · rw [if_neg h] at heq
    subst heq
    exact hinv d0 hd0 hready

theorem readyInv_markFailed {st : DbState} (hinv : ReadyInv st) (docId : Nat)
    (reason : String) : ReadyInv (markFailed st docId reason) := by
  unfold markFailed
  split
  · exact readyInv_updateDoc hinv (fun d0 => ⟨by simp, rfl⟩)
  · exact hinv

theorem readyInv_incrementAttempt {st : DbState} (hinv : ReadyInv st) (docId : Nat) :
    ReadyInv (incrementAttempt st docId) :=
  readyInv_updateDoc hinv (fun d0 => ⟨by simp, rfl⟩)

theorem readyInv_processDocument {st : DbState} (hinv : ReadyInv st) (docId : Nat)
    {chunks : List String} (hch : chunks ≠ []) (emb : String → List ℚ) :
    ReadyInv (processDocument st docId chunks emb) := by
  unfold processDocument
  cases hfind : st.docs.find? (fun d => decide (d.id = docId)) with
  | none => exact hinv
  | some doc =>
    obtain ⟨c0, rest, rfl⟩ : ∃ c0 rest, chunks = c0 :: rest := by
      cases chunks with
      | nil => exact absurd rfl hch
      | cons a t => exact ⟨a, t, rfl⟩
    intro d hd hready
    obtain ⟨d0, hd0, heq⟩ := List.mem_map.mp hd
    by_cases h : d0.id = docId
    · refine ⟨IngChunkRow.mk docId doc.tenant doc.kb c0 (some (emb c0)),
        List.mem_append.mpr (Or.inr (by simp)), ?_, by simp⟩
      rw [← heq, if_pos h]
      simpa using h.symm
    · rw [if_neg h] at heq
      subst heq
      obtain ⟨c, hc, hcd, hce⟩ := hinv d0 hd0 hready
      refine ⟨c, List.mem_append.mpr (Or.inl ?_), hcd, hce⟩
      rw [List.mem_filter]
      refine ⟨hc, ?_⟩
      simp only [decide_eq_true_eq]
      intro hand
      exact h (hcd ▸ hand.1)

theorem readyInv_processUploadedFile {st : DbState} (hinv : ReadyInv st) (docId : Nat)
    (extractChunks : Except String (List String))
    (embedResult : Except String (String → List ℚ)) :
    ReadyInv (processUploadedFile st docId extractChunks embedResult) := by
  unfold processUploadedFile
  cases extractChunks with
  | error e => exact readyInv_markFailed hinv docId e
  | ok chunks =>
    cases chunks with
    | nil => exact readyInv_markFailed hinv docId _
    | cons a t =>
      cases embedResult with
      | error e => exact readyInv_markFailed (readyInv_incrementAttempt hinv docId) docId e
      | ok emb =>
        exact readyInv_processDocument (readyInv_incrementAttempt hinv docId) docId
          (by simp) emb

theorem readyInv_ingestRequest {st : DbState} (hinv : ReadyInv st) (tenant kb : Nat)
    (filename key : String) (newId : Nat) :
    ReadyInv (ingestRequest st tenant kb filename key newId).1 := by
  unfold ingestRequest
  cases (st.docs.filter
      (fun d => decide (d.tenant = tenant ∧ d.kb = kb ∧ d.idemKey = some key))).getLast? with
  | some existing =>
    show ReadyInv (if existing.status = "READY" then (st, existing.id, false)
      else (updateDoc st existing.id
        (fun d => { d with filename := filename, status := "PROCESSING" }),
        existing.id, true)).1
    by_cases h : existing.status = "READY"
    · rw [if_pos h]
      exact hinv
    · rw [if_neg h]
      exact readyInv_updateDoc hinv (fun d0 => ⟨by simp, rfl⟩)
  | none =>
    intro d hd hready
    rcases List.mem_append.mp hd with h | h
    · exact hinv d h hready
    · rw [List.mem_singleton] at h
      rw [h] at hready
      simp at hready

/-- C9: after every ingestion-pipeline operation, every READY document has
at least one associated chunk with a non-null embedding — each operation
preserves the invariant: `process_uploaded_file` (which is also the control
flow of `process_url`) with any extraction/chunking/embedding outcome,
`mark_failed`, the `ingest_document` route handler, and a whole keyed
ingestion request. -/
theorem c9_ready_invariant (st : DbState) (hinv : ReadyInv st) :
    (∀ docId extractChunks embedResult,
        ReadyInv (processUploadedFile st docId extractChunks embedResult))
    ∧ (∀ docId reason, ReadyInv (markFailed st docId reason))
    ∧ (∀ tenant kb filename key newId,
        ReadyInv (ingestRequest st tenant kb filename key newId).1)
    ∧ (∀ tenant kb filename key newId extractChunks embedResult,
        ReadyInv (ingestWithKey st tenant kb filename key newId extractChunks embedResult)) := by
  refine ⟨fun docId ec er => readyInv_processUploadedFile hinv docId ec er,
    fun docId reason => readyInv_markFailed hinv docId reason,
    fun tenant kb filename key newId => readyInv_ingestRequest hinv tenant kb filename key newId,
    fun tenant kb filename key newId ec er => ?_⟩
  unfold ingestWithKey
  have h1 := readyInv_ingestRequest hinv tenant kb filename key newId
  cases hreq : ingestRequest st tenant kb filename key newId with
  | mk st1 rest =>
    rw [hreq] at h1
    cases rest with
    | mk docId run =>
      cases run with
      | false => exact h1
      | true => exact readyInv_processUploadedFile h1 docId ec er

theorem find?_append_right {α : Type} {l1 : List α} (l2 : List α) {p : α → Bool}
    (h : ∀ x ∈ l1, p x = false) : (l1 ++ l2).find? p = l2.find? p := by
  induction l1 with
  | nil => rfl
  | cons a t ih =>
    rw [List.cons_append, List.find?_cons, h a (List.mem_cons_self a t)]
    exact ih (fun x hx => h x (List.mem_cons_of_mem a hx))

theorem map_update_id {l : List DocRow} {n : Nat} {f : DocRow → DocRow}
    (h : ∀ d ∈ l, d.id ≠ n) : l.map (fun d => if d.id = n then f d else d) = l := by
  induction l with
  | nil => rfl
  | cons a t ih =>
    rw [List.map_cons, if_neg (h a (List.mem_cons_self a t)),
      ih (fun d hd => h d (List.mem_cons_of_mem a hd))]

theorem updateDoc_append_last {l : List DocRow} {d : DocRow} {chs : List IngChunkRow}
    {n : Nat} {f : DocRow → DocRow} (hfresh : ∀ x ∈ l, x.id ≠ n) (hd : d.id = n) :
    updateDoc (DbState.mk (l ++ [d]) chs) n f = DbState.mk (l ++ [f d]) chs := by
  unfold updateDoc
  simp only [DbState.mk.injEq, and_true]
  rw [List.map_append, map_update_id hfresh]
  simp [hd]

theorem markFailed_append_last {l : List DocRow} {d : DocRow} {chs : List IngChunkRow}
    {n : Nat} (reason : String) (hfresh : ∀ x ∈ l, x.id ≠ n) (hd : d.id = n) :
    markFailed (DbState.mk (l ++ [d]) chs) n reason
      = DbState.mk (l ++ [{ d with status := "FAILED", lastError := some reason }]) chs := by
  unfold markFailed
  have hsome : (((l ++ [d]).find? (fun x => decide (x.id = n)))).isSome := by
    rw [find?_append_right _ (fun x hx => by simpa using hfresh x hx)]
    simp [hd]
  rw [if_pos hsome]
  exact updateDoc_append_last hfresh hd

theorem incrementAttempt_append_last {l : List DocRow} {d : DocRow} {chs : List IngChunkRow}
    {n : Nat} (hfresh : ∀ x ∈ l, x.id ≠ n) (hd : d.id = n) :
    incrementAttempt (DbState.mk (l ++ [d]) chs) n
      = DbState.mk
          (l ++ [{ d with attempts := some (d.attempts.getD 0 + 1), status := "PROCESSING" }])
          chs :=
  updateDoc_append_last hfresh hd

theorem processDocument_append_last {l : List DocRow} {d : DocRow} {chs : List IngChunkRow}
    {n : Nat} (ch : List String) (emb : String → List ℚ)
    (hfresh : ∀ x ∈ l, x.id ≠ n) (hd : d.id = n)
    (hcfresh : ∀ c ∈ chs, c.docId ≠ n) :
    processDocument (DbState.mk (l ++ [d]) chs) n ch emb
      = DbState.mk (l ++ [{ d with status := "READY", lastError := none }])
          (chs ++ ch.map (fun content =>
            IngChunkRow.mk n d.tenant d.kb content (some (emb content)))) := by
  unfold processDocument
  have hfind : ((l ++ [d]).find? (fun x => decide (x.id = n))) = some d := by
    rw [find?_append_right _ (fun x hx => by simpa using hfresh x hx)]
    simp [hd]
  rw [hfind]
  have hkept : chs.filter (fun c => decide (¬ (c.docId = n ∧ c.tenant = d.tenant))) = chs :=
    List.filter_eq_self.mpr (fun c hc => by simp [hcfresh c hc])
  show updateDoc (DbState.mk (l ++ [d])
      ((chs.filter (fun c => decide (¬ (c.docId = n ∧ c.tenant = d.tenant))))
        ++ ch.map (fun content => IngChunkRow.mk n d.tenant d.kb content (some (emb content)))))
      n (fun x => { x with status := "READY", lastError := none }) = _
  rw [hkept, updateDoc_append_last hfresh hd]

/-- A first keyed ingestion request against a state holding no document with
this (tenant, kb, key): the route creates a fresh PROCESSING row with
`ingestion_attempts = 0`; the background task chunks successfully,
increments the attempt counter to 1, and the embedding call fails, so the
row ends FAILED with the reason recorded and the chunk table untouched. -/
theorem ingest_create_then_embed_fail (st : DbState) (t kb : Nat) (f key : String) (n : Nat)
    (ch : List String) (e : String)
    (hkey : ∀ d ∈ st.docs, ¬ (d.tenant = t ∧ d.kb = kb ∧ d.idemKey = some key))
    (hfresh : ∀ d ∈ st.docs, d.id ≠ n) (hch : ch ≠ []) :
    ingestWithKey st t kb f key n (.ok ch) (.error e)
      = DbState.mk (st.docs ++ [DocRow.mk n t kb f "FAILED" (some 1) (some e) (some key)])
          st.chunks := by
  have hfilter : st.docs.filter
      (fun d => decide (d.tenant = t ∧ d.kb = kb ∧ d.idemKey = some key)) = [] :=
    List.filter_eq_nil_iff.mpr (fun d hd => by simpa using hkey d hd)
  unfold ingestWithKey ingestRequest
  rw [hfilter]
  show processUploadedFile
      (DbState.mk (st.docs ++ [DocRow.mk n t kb f "PROCESSING" (some 0) none (some key)])
        st.chunks) n (.ok ch) (.error e) = _
  have hred : processUploadedFile
      (DbState.mk (st.docs ++ [DocRow.mk n t kb f "PROCESSING" (some 0) none (some key)])
        st.chunks) n (.ok ch) (.error e)
      = markFailed (incrementAttempt
          (DbState.mk (st.docs ++ [DocRow.mk n t kb f "PROCESSING" (some 0) none (some key)])
            st.chunks) n) n e := by
    unfold processUploadedFile
    simp [hch]
  rw [hred, incrementAttempt_append_last hfresh rfl, markFailed_append_last e hfresh rfl]
  rfl

/-- A second keyed ingestion request finding the FAILED row of the first:
the route reuses the row (new filename, status PROCESSING, attempts kept);
the background task chunks successfully, increments the attempt counter,
embeds, deletes the document's prior chunks and inserts the new embedded
rows in one transaction, and sets the row READY with `last_error`
cleared. -/
theorem ingest_retry_then_success (l : List DocRow) (chs : List IngChunkRow) (t kb : Nat)
    (f f2 key : String) (n n2 : Nat) (a : Nat) (le0 : Option String)
    (ch2 : List String) (emb : String → List ℚ)
    (hkey : ∀ d ∈ l, ¬ (d.tenant = t ∧ d.kb = kb ∧ d.idemKey = some key))
    (hfresh : ∀ d ∈ l, d.id ≠ n)
    (hcfresh : ∀ c ∈ chs, c.docId ≠ n)
    (hch2 : ch2 ≠ []) :
    ingestWithKey (DbState.mk (l ++ [DocRow.mk n t kb f "FAILED" (some a) le0 (some key)]) chs)
        t kb f2 key n2 (.ok ch2) (.ok emb)
      = DbState.mk (l ++ [DocRow.mk n t kb f2 "READY" (some (a + 1)) none (some key)])
          (chs ++ ch2.map (fun content =>
            IngChunkRow.mk n t kb content (some (emb content)))) := by
  have hfilter : (l ++ [DocRow.mk n t kb f "FAILED" (some a) le0 (some key)]).filter
      (fun d => decide (d.tenant = t ∧ d.kb = kb ∧ d.idemKey = some key))
      = [DocRow.mk n t kb f "FAILED" (some a) le0 (some key)] := by
    rw [List.filter_append,
      List.filter_eq_nil_iff.mpr (fun d hd => by simpa using hkey d hd)]
    simp
  unfold ingestWithKey ingestRequest
  rw [hfilter]
  show processUploadedFile
      (updateDoc (DbState.mk (l ++ [DocRow.mk n t kb f "FAILED" (some a) le0 (some key)]) chs) n
        (fun d => { d with filename := f2, status := "PROCESSING" }))
      n (.ok ch2) (.ok emb) = _
  rw [updateDoc_append_last hfresh rfl]
  have hred : processUploadedFile
      (DbState.mk (l ++ [DocRow.mk n t kb f2 "PROCESSING" (some a) le0 (some key)]) chs)
      n (.ok ch2) (.ok emb)
      = processDocument (incrementAttempt
          (DbState.mk (l ++ [DocRow.mk n t kb f2 "PROCESSING" (some a) le0 (some key)]) chs) n)
          n ch2 emb := by
    unfold processUploadedFile
    simp [hch2]
  rw [hred, incrementAttempt_append_last hfresh rfl,
    processDocument_append_last ch2 emb hfresh rfl hcfresh]
  rfl

/-- C3 (amended): two keyed ingestion requests for the same tenant and kb,
the first reaching the embedding step and failing there, the second
succeeding, leave exactly one document row carrying the key, with
`ingestion_attempts = 2`, status READY, `last_error` cleared, and the
document's chunk rows are exactly one row per chunk of the successful
attempt (no duplicates).  (As the claim literally states it — for every
failing first attempt — it fails: the attempt counter is incremented only
after extraction and chunking succeed, so a first attempt failing before
the embedding step leaves `ingestion_attempts = 1` after the successful
retry, not 2.  Each request does set status PROCESSING.) -/
theorem c3_idempotent_retry (st : DbState) (tenant kb : Nat) (f1 f2 key : String)
    (n1 n2 : Nat) (chunks1 chunks2 : List String) (e : String) (emb : String → List ℚ)
    (hkey : ∀ d ∈ st.docs, ¬ (d.tenant = tenant ∧ d.kb = kb ∧ d.idemKey = some key))
    (hfresh : ∀ d ∈ st.docs, d.id ≠ n1)
    (hcfresh : ∀ c ∈ st.chunks, c.docId ≠ n1)
    (hch1 : chunks1 ≠ []) (hch2 : chunks2 ≠ []) :
    ((ingestWithKey (ingestWithKey st tenant kb f1 key n1 (.ok chunks1) (.error e))
        tenant kb f2 key n2 (.ok chunks2) (.ok emb)).docs.filter
        (fun d => decide (d.tenant = tenant ∧ d.kb = kb ∧ d.idemKey = some key))).length = 1
    ∧ (∀ d ∈ (ingestWithKey (ingestWithKey st tenant kb f1 key n1 (.ok chunks1) (.error e))
          tenant kb f2 key n2 (.ok chunks2) (.ok emb)).docs,
        d.id = n1 → d.attempts = some 2 ∧ d.status = "READY" ∧ d.lastError = none)
    ∧ (ingestWithKey (ingestWithKey st tenant kb f1 key n1 (.ok chunks1) (.error e))
          tenant kb f2 key n2 (.ok chunks2) (.ok emb)).chunks.filter
          (fun c => decide (c.docId = n1))
        = chunks2.map (fun content =>
            IngChunkRow.mk n1 tenant kb content (some (emb content))) := by
  have hfinal : ingestWithKey (ingestWithKey st tenant kb f1 key n1 (.ok chunks1) (.error e))
        tenant kb f2 key n2 (.ok chunks2) (.ok emb)
      = DbState.mk
          (st.docs ++ [DocRow.mk n1 tenant kb f2 "READY" (some 2) none (some key)])
          (st.chunks ++ chunks2.map (fun content =>
            IngChunkRow.mk n1 tenant kb content (some (emb content)))) := by
    rw [ingest_create_then_embed_fail st tenant kb f1 key n1 chunks1 e hkey hfresh hch1]
    exact ingest_retry_then_success st.docs st.chunks tenant kb f1 f2 key n1 n2 1 (some e)
      chunks2 emb hkey hfresh hcfresh hch2
  rw [hfinal]
  refine ⟨?_, ?_, ?_⟩
  · rw [List.filter_append,
      List.filter_eq_nil_iff.mpr (fun d hd => by simpa using hkey d hd)]
    simp
  · intro d hd hdid
    rcases List.mem_append.mp hd with h | h
    · exact absurd hdid (hfresh d h)
    · rw [List.mem_singleton] at h
      rw [h]
      exact ⟨rfl, rfl, rfl⟩
  · rw [List.filter_append,
      List.filter_eq_nil_iff.mpr (fun c hc => by simpa using hcfresh c hc),
      List.filter_eq_self.mpr (fun c hc => ?_)]
    · rw [List.nil_append]
    · obtain ⟨x, _, hx⟩ := List.mem_map.mp hc
      rw [← hx]
      simp

/-- C3 counterexample: with the same idempotency key, a first request whose
extraction yields no chunks (failing before the embedding step) and a
successful second request leave the single document row with
`ingestion_attempts = 1`, not 2 — `_increment_attempt` runs only after
extraction and chunking succeed. -/
theorem c3_counterexample :
    ((ingestWithKey (ingestWithKey (DbState.mk [] []) 1 1 "a.txt" "k" 1
          (.ok []) (.ok (fun _ => [])))
        1 1 "a.txt" "k" 2 (.ok ["hello"]) (.ok (fun _ => []))).docs.filter
        (fun d => decide (d.tenant = 1 ∧ d.kb = 1 ∧ d.idemKey = some "k"))).length = 1
    ∧ ((ingestWithKey (ingestWithKey (DbState.mk [] []) 1 1 "a.txt" "k" 1
          (.ok []) (.ok (fun _ => [])))
        1 1 "a.txt" "k" 2 (.ok ["hello"]) (.ok (fun _ => []))).docs.map
          (fun d => d.status) = ["READY"])
    ∧ ((ingestWithKey (ingestWithKey (DbState.mk [] []) 1 1 "a.txt" "k" 1
          (.ok []) (.ok (fun _ => [])))
        1 1 "a.txt" "k" 2 (.ok ["hello"]) (.ok (fun _ => []))).docs.map
          (fun d => d.attempts) = [some 1])
    ∧ ((ingestWithKey (ingestWithKey (DbState.mk [] []) 1 1 "a.txt" "k" 1
          (.ok []) (.ok (fun _ => [])))
        1 1 "a.txt" "k" 2 (.ok ["hello"]) (.ok (fun _ => []))).docs.map
          (fun d => d.attempts) ≠ [some 2]) := by
  refine ⟨by decide, by decide, by decide, by decide⟩

theorem c3_witness :
    ((ingestWithKey (ingestWithKey (DbState.mk [] []) 1 1 "a.txt" "k" 1
          (.ok ["x"]) (.error "embed down"))
        1 1 "b.txt" "k" 2 (.ok ["y"]) (.ok (fun _ => []))).docs.filter
        (fun d => decide (d.tenant = 1 ∧ d.kb = 1 ∧ d.idemKey = some "k"))).length = 1
    ∧ (∀ d ∈ (ingestWithKey (ingestWithKey (DbState.mk [] []) 1 1 "a.txt" "k" 1
          (.ok ["x"]) (.error "embed down"))
        1 1 "b.txt" "k" 2 (.ok ["y"]) (.ok (fun _ => []))).docs,
        d.id = 1 → d.attempts = some 2 ∧ d.status = "READY" ∧ d.lastError = none)
    ∧ (ingestWithKey (ingestWithKey (DbState.mk [] []) 1 1 "a.txt" "k" 1
          (.ok ["x"]) (.error "embed down"))
        1 1 "b.txt" "k" 2 (.ok ["y"]) (.ok (fun _ => []))).chunks.filter
        (fun c => decide (c.docId = 1))
        = ["y"].map (fun content => IngChunkRow.mk 1 1 1 content (some [])) :=
  c3_idempotent_retry (DbState.mk [] []) 1 1 "a.txt" "b.txt" "k" 1 2 ["x"] ["y"]
    "embed down" (fun _ => []) (by decide) (by decide) (by decide) (by decide) (by decide)

theorem c9_witness :
    ReadyInv (markFailed
      (DbState.mk [DocRow.mk 1 1 1 "f.txt" "READY" (some 1) none none]
        [IngChunkRow.mk 1 1 1 "c" (some [1])]) 1 "boom") :=
  (c9_ready_invariant
    (DbState.mk [DocRow.mk 1 1 1 "f.txt" "READY" (some 1) none none]
      [IngChunkRow.mk 1 1 1 "c" (some [1])]) (by decide)).2.1 1 "boom"

end RagPlatform
